import Mathlib

/-!
# Verification of `queue.c` (lab0-c, circular doubly-linked queue of strings)

Shallow embedding of the queue operations in `src/queue.c`.

Modelling choices:
* A C string (NUL-terminated, no interior NUL) is a `List Nat` of its bytes.
* A queue pointer is `Option` of the queue contents: `none` is a NULL
  pointer; `some l` is a well-formed circular list whose forward traversal
  order (from the sentinel) is `l`.
* Dereferencing a NULL pointer (a crash / undefined behaviour) is the
  `Except.error` result of an operation.
* `malloc` results are modelled by explicit `Bool` parameters
  (`true` = allocation succeeded), one per call site, in program order.
* For the sort, elements are `Nat × Str` pairs: the `Nat` is the node's
  identity, the `Str` its `value` field, so that stability (which is about
  node identity, not values) is expressible.
* For claims about the `prev` pointers and circularity, a circular doubly
  linked structure over node type `Option α` (`none` is the sentinel) is
  given by its lists of `next` and `prev` assignments (node, target).
-/

/-- A C string: the list of its (nonzero) bytes, before the terminator. -/
abbrev Str := List Nat

/-- An element of the queue for the sort functions: node identity paired
with the `value` field.  `q_sort` compares only `.2` (the string). -/
abbrev Elem := Nat × Str

/-- C `strcmp` on NUL-terminated byte strings: lexicographic comparison;
a proper prefix is smaller because the terminator 0 is below every byte. -/
def strcmp : Str → Str → Ordering
  | [], [] => .eq
  | [], _ :: _ => .lt
  | _ :: _, [] => .gt
  | a :: as, b :: bs =>
    if a < b then .lt else if b < a then .gt else strcmp as bs

/-- `strcmp a b <= 0`, i.e. `a` is lexicographically at most `b`. -/
def sle (a b : Str) : Bool :=
  match strcmp a b with
  | .gt => false
  | _ => true

theorem strcmp_self : ∀ a : Str, strcmp a a = .eq
  | [] => rfl
  | _ :: as => by simp [strcmp, strcmp_self as]

theorem strcmp_eq_iff : ∀ a b : Str, strcmp a b = .eq ↔ a = b
  | [], [] => by simp [strcmp]
  | [], _ :: _ => by simp [strcmp]
  | _ :: _, [] => by simp [strcmp]
  | a :: as, b :: bs => by
    simp only [strcmp]
    split_ifs with h1 h2
    · simp; omega
    · simp; omega
    · have hab : a = b := by omega
      simp [hab, strcmp_eq_iff as bs]

theorem strcmp_lt_iff_gt : ∀ a b : Str, strcmp a b = .lt ↔ strcmp b a = .gt
  | [], [] => by simp [strcmp]
  | [], _ :: _ => by simp [strcmp]
  | _ :: _, [] => by simp [strcmp]
  | a :: as, b :: bs => by
    simp only [strcmp]
    split_ifs with h1 h2
    · simp
      omega
    · simp
    · simp
    · exact strcmp_lt_iff_gt as bs

theorem sle_iff (a b : Str) : sle a b = true ↔ strcmp a b ≠ .gt := by
  unfold sle
  cases h : strcmp a b <;> simp

theorem sle_nil (b : Str) : sle [] b = true := by
  cases b <;> simp [sle, strcmp]

theorem sle_of_lt {a b : Str} (h : strcmp a b = .lt) : sle a b = true := by
  simp [sle, h]

theorem sle_of_not_lt {a b : Str} (h : strcmp a b ≠ .lt) : sle b a = true := by
  rw [sle_iff]
  intro hgt
  exact h ((strcmp_lt_iff_gt a b).mpr hgt)

theorem sle_refl (a : Str) : sle a a = true := by
  simp [sle, strcmp_self]

theorem sle_total (a b : Str) : sle a b = true ∨ sle b a = true := by
  rcases h : strcmp a b with _ | _ | _
  · left; simp [sle, h]
  · left; simp [sle, h]
  · right; exact sle_of_lt ((strcmp_lt_iff_gt b a).mpr h)

theorem sle_antisymm : ∀ {a b : Str}, sle a b = true → sle b a = true → a = b := by
  intro a b hab hba
  rw [sle_iff] at hab hba
  rcases h : strcmp a b with _ | _ | _
  · exact absurd ((strcmp_lt_iff_gt a b).mp h) hba
  · exact (strcmp_eq_iff a b).mp h
  · exact absurd h hab

theorem sle_cons (a b : Nat) (as bs : Str) :
    sle (a :: as) (b :: bs) =
      if a < b then true else if b < a then false else sle as bs := by
  simp only [sle, strcmp]
  split_ifs <;> rfl

theorem sle_trans : ∀ {a b c : Str}, sle a b = true → sle b c = true → sle a c = true
  | [], _, c, _, _ => sle_nil c
  | _ :: _, [], _, hab, _ => by simp [sle, strcmp] at hab
  | _ :: _, _ :: _, [], _, hbc => by simp [sle, strcmp] at hbc
  | a :: as, b :: bs, c :: cs, hab, hbc => by
    rw [sle_cons] at hab hbc ⊢
    split_ifs at hab hbc ⊢ <;> try simp_all
    all_goals first
    | omega
    | exact sle_trans hab hbc

/-! ## The sorting functions (`merge`, `merge_sort`, `q_sort`, lines 287-348)

`merge_sort` works on a NULL-terminated singly linked chain, modelled as the
`List Elem` of its nodes in forward order.  `merge` follows lines 287-305:
while both chains are non-NULL the head with the strictly smaller string
(`strcmp(...) < 0`) is appended, otherwise the head of `second`; when one
chain is exhausted the other is appended whole (`*ptr = first | second`). -/

def merge (first second : List Elem) : List Elem :=
  match first, second with
  | [], s => s
  | f, [] => f
  | x :: xs, y :: ys =>
    if strcmp x.2 y.2 = .lt then x :: merge xs (y :: ys)
    else y :: merge (x :: xs) ys
termination_by first.length + second.length
decreasing_by
  all_goals simp

/-- The slow/fast split of `merge_sort` (lines 313-322): `first` starts at
`head` (position `i`), `second` at `head->next` (the list argument); while
`second && second->next` both advance, `second` by two.  The returned value
is the position of `middle = first->next`. -/
def splitIdx (i : Nat) : List α → Nat
  | _ :: _ :: rest => splitIdx (i + 1) rest
  | _ => i + 1

theorem splitIdx_eq : ∀ (l : List α) (i : Nat), splitIdx i l = i + 1 + l.length / 2
  | [], i => by simp [splitIdx]
  | [_], i => by simp [splitIdx]
  | _ :: _ :: rest, i => by
    have ih := splitIdx_eq rest (i + 1)
    simp [splitIdx, ih]
    omega

/-- `merge_sort` (lines 307-326): chains of length ≤ 1 are returned as is;
otherwise the chain is cut at `middle` (found by `splitIdx`) and the two
halves are sorted recursively and merged. -/
def merge_sort (l : List Elem) : List Elem :=
  match l with
  | [] => []
  | [x] => [x]
  | x :: y :: rest =>
    merge (merge_sort ((x :: y :: rest).take (splitIdx 0 (y :: rest))))
          (merge_sort ((x :: y :: rest).drop (splitIdx 0 (y :: rest))))
termination_by l.length
decreasing_by
  all_goals simp [splitIdx_eq] <;> omega

/-- The body of `q_sort` on the contents of a non-NULL queue (lines 328-348):
return unchanged when empty or singular, otherwise linearize and run
`merge_sort` on the chain of elements. -/
def q_sortChain (l : List Elem) : List Elem :=
  match l with
  | [] => l
  | [_] => l
  | _ => merge_sort l

/-- `q_sort` (line 328): `!head` guard, then the chain is sorted. -/
def q_sort (q : Option (List Elem)) : Option (List Elem) :=
  match q with
  | none => none
  | some l => some (q_sortChain l)

/-! ## Creation, destruction, insertion, removal, size (lines 19-175) -/

/-- `q_new` (lines 19-27): allocate a sentinel (`alloc` is the `malloc`
outcome); on failure return NULL, else an empty queue. -/
def q_new (alloc : Bool) : Option (List α) :=
  if alloc then some [] else none

/-- `q_free` (lines 30-40): guarded by `if (!l) return;`, releases every
element and the sentinel; it returns normally on every input. -/
def q_free (q : Option (List α)) : Except Unit Unit :=
  match q with
  | none => .ok ()
  | some _ => .ok ()

/-- The string copy of `q_insert_head` lines 63-64 / `q_insert_tail` lines
88-89: `strncpy(dst, s, strlen(s))` followed by `dst[strlen(s)] = 0`
copies exactly the `strlen(s)` bytes of `s` and terminates them. -/
def str_copy (s : Str) : Str :=
  s.take s.length

/-- `q_insert_head` (lines 49-68).  `a1`, `a2` are the outcomes of the two
`malloc` calls (element shell, string buffer).  When the string buffer
allocation fails the shell is freed and `false` returned (lines 59-62),
so the queue is unchanged and nothing leaks. -/
def q_insert_head (a1 a2 : Bool) (q : Option (List Str)) (s : Str) :
    Except Unit (Option (List Str) × Bool) :=
  match q with
  | none => .ok (none, false)
  | some l =>
    match a1 with
    | false => .ok (some l, false)
    | true =>
      match a2 with
      | false => .ok (some l, false)
      | true => .ok (some (str_copy s :: l), true)

/-- `q_insert_tail` (lines 77-93).  Unlike `q_insert_head`, the result of
`malloc` for the string buffer (line 87) is never checked: when it fails
(`a2 = false`), line 88 calls `strncpy` with a NULL destination and line 89
writes through it — a crash, with the element shell still allocated. -/
def q_insert_tail (a1 a2 : Bool) (q : Option (List Str)) (s : Str) :
    Except Unit (Option (List Str) × Bool) :=
  match q with
  | none => .ok (none, false)
  | some l =>
    match a1 with
    | false => .ok (some l, false)
    | true =>
      match a2 with
      | false => .error ()
      | true => .ok (some (l ++ [str_copy s]), true)

/-- `q_remove_head` (lines 109-125): NULL/empty guard, unlink the first
element and return it; when `sp` is non-NULL (`sp = some bufsize`) up to
`bufsize - 1` bytes of the removed value are copied out.  The result is
(queue after removal, removed element's value, copy written to `sp`). -/
def q_remove_head (q : Option (List Str)) (sp : Option Nat) :
    Option (List Str) × Option Str × Option Str :=
  match q with
  | none => (none, none, none)
  | some [] => (some [], none, none)
  | some (x :: rest) =>
    (some rest, some x,
      match sp with
      | none => none
      | some bufsize => some (x.take (bufsize - 1)))

/-- `q_remove_tail` (lines 131-147): as `q_remove_head` but for the last
element. -/
def q_remove_tail (q : Option (List Str)) (sp : Option Nat) :
    Option (List Str) × Option Str × Option Str :=
  match q with
  | none => (none, none, none)
  | some [] => (some [], none, none)
  | some (x :: rest) =>
    ((x :: rest).dropLast, some ((x :: rest).getLast (List.cons_ne_nil x rest)),
      match sp with
      | none => none
      | some bufsize =>
        some (((x :: rest).getLast (List.cons_ne_nil x rest)).take (bufsize - 1)))

/-- `q_size` (lines 163-175): 0 on NULL or empty, otherwise one count per
node of the forward traversal. -/
def q_size (q : Option (List α)) : Nat :=
  match q with
  | none => 0
  | some l => l.length

/-! ## `q_delete_mid` (lines 185-203) -/

/-- The slow/fast loop of `q_delete_mid` (lines 192-198): both pointers
start at `head->next`; while `second != head && second->next != head`
(i.e. at least two nodes remain in `second`'s suffix), `first` advances one
(`i + 1`) and `second` two.  Returns the position of `first`. -/
def midAux (i : Nat) : List α → Nat
  | _ :: _ :: rest => midAux (i + 1) rest
  | _ => i

/-- `q_delete_mid`: NULL/empty guard returning false, otherwise the node
`first` ends on is unlinked and released. -/
def q_delete_mid (q : Option (List α)) : Option (List α) × Bool :=
  match q with
  | none => (none, false)
  | some [] => (some [], false)
  | some l => (some (l.eraseIdx (midAux 0 l)), true)

/-! ## `q_delete_dup` (lines 214-233)

In the loop of `q_delete_dup`, `first` is initialised to `head` and never
reassigned (`first->next = second` changes `head->next`, not `first`), and
the guard compares `list_entry(first, ...)` with `list_entry(second, ...)`
— two pointers, equal exactly when `first == second`, so the strings are
never read.  `second` walks the original chain `head, n1, n2, ...`; on the
sentinel step `first == second` so nothing is assigned, and on every later
step `head->next = second` is assigned.  No node is ever freed. -/

/-- The loop from the point where `second` has moved to the first element:
`cur` is the current `head->next` chain, `s` the suffix starting at
`second`.  While `second->next != head` (`s` has at least two nodes),
assign `head->next = second` (`cur := s`) and advance `second`. -/
def delDupLoop (cur : List α) (s : List α) : List α :=
  match s with
  | x :: y :: rest => delDupLoop (x :: y :: rest) (y :: rest)
  | _ => cur

/-- `q_delete_dup`: `if (!head) return false;` then the loop; returns true
on any non-NULL queue.  For an empty queue the loop guard
`second->next != head` fails at once. -/
def q_delete_dup (q : Option (List α)) : Option (List α) × Bool :=
  match q with
  | none => (none, false)
  | some [] => (some [], true)
  | some l => (some (delDupLoop l l), true)

/-! ## `q_swap` (lines 238-257) -/

/-- Effect of one `q_swap` loop iteration on the remaining forward chain:
the first two nodes `x, y` are relinked to `y, x` (lines 246-253) and
`first` moves past them (line 255: `first = first->next`, which after the
relink is the node after the pair); a final unpaired node is left alone
(guard `first->next != head`). -/
def q_swapAux : List α → List α
  | x :: y :: rest => y :: x :: q_swapAux rest
  | l => l

/-- `q_swap` (line 241): `head->next` is read before any NULL check, so a
NULL queue pointer is dereferenced — a crash, modelled as `.error`. -/
def q_swap (q : Option (List α)) : Except Unit (List α) :=
  match q with
  | none => .error ()
  | some l => .ok (q_swapAux l)

/-! ## The circular doubly-linked structure: `q_reverse` and `q_sort` relink

A well-formed queue with forward element order `l` is, at the pointer
level, the pair of assignment tables (node, target of `next`) and
(node, target of `prev`) below; node `none` is the sentinel. -/

/-- `next` assignments of a well-formed circular queue with forward order
`l`: the sentinel points at the first element, each element at the next,
the last back at the sentinel. -/
def nextsOf (l : List α) : List (Option α × Option α) :=
  List.zip (none :: l.map some) (l.map some ++ [none])

/-- `prev` assignments of the same structure: each element points at its
forward predecessor, the sentinel at the last element. -/
def prevsOf (l : List α) : List (Option α × Option α) :=
  List.zip (l.map some ++ [none]) (none :: l.map some)

/-- `q_reverse` (lines 266-280).  On a NULL queue, line 268 (`!head->next`)
dereferences the NULL pointer — a crash.  Otherwise the
`list_for_each_safe` loop sets `next = prev, prev = old next` at every
element, and lines 278-279 do the same at the sentinel (at loop exit
`running == head` and `safe` is the original `head->next`): the net effect
on the state is that the `next` and `prev` tables are exchanged. -/
def q_reverse (q : Option (List (Option α × Option α) × List (Option α × Option α))) :
    Except Unit (List (Option α × Option α) × List (Option α × Option α)) :=
  match q with
  | none => .error ()
  | some st => .ok (st.2, st.1)

/-- The reconnection loop of `q_sort` (lines 339-345): `first = head`,
`second = head->next`; while `second` is non-NULL, `second->prev = first`
and both advance.  Returns the `prev` assignments made and the final value
of `first` (the last node of the chain). -/
def relinkLoop (first : β) : List β → List (β × β) × β
  | [] => ([], first)
  | x :: rest =>
    let p := relinkLoop x rest
    ((x, first) :: p.1, p.2)

/-- All `prev` assignments in force after `q_sort` returns: those of the
reconnection loop over the sorted chain `c`, then `head->prev = first`
(line 347). -/
def q_sort_prevs (c : List α) : List (Option α × Option α) :=
  let p := relinkLoop (none : Option α) (c.map some)
  p.1 ++ [(none, p.2)]

/-! ## Reading a pointer structure back: traversal by `next` table -/

/-- Look up the target assigned to node `k` in an assignment table. -/
def alookup [DecidableEq β] (k : β) : List (β × β) → Option β
  | [] => none
  | (a, b) :: rest => if a = k then some b else alookup k rest

/-- Follow an assignment table `fuel` steps from `cur`, recording each node
reached. -/
def chainFromAux [DecidableEq β] (assoc : List (β × β)) : Nat → β → List β
  | 0, _ => []
  | fuel + 1, cur =>
    match alookup cur assoc with
    | none => []
    | some nxt => nxt :: chainFromAux assoc fuel nxt

/-- The forward traversal from the sentinel under a `next` table. -/
def chainFrom [DecidableEq α] (assoc : List (Option α × Option α)) (fuel : Nat) :
    List (Option α) :=
  chainFromAux assoc fuel none

/-! ## Order on queue elements, as used by the sort -/

/-- Order on strings, `strcmp a b <= 0`, as a relation. -/
def strLe (a b : Str) : Prop := sle a b = true

/-- Order on queue elements: comparison of the `value` fields. -/
def elemLe (a b : Elem) : Prop := sle a.2 b.2 = true

instance : IsTrans Str strLe := ⟨fun _ _ _ => sle_trans⟩

instance : IsAntisymm Str strLe := ⟨fun _ _ => sle_antisymm⟩

instance : IsTrans Elem elemLe := ⟨fun _ _ _ => sle_trans⟩

/-! ## `merge` and `merge_sort`: permutation and sortedness -/

theorem merge_nil_left (s : List Elem) : merge [] s = s := by
  simp [merge]

theorem merge_nil_right (f : List Elem) : merge f [] = f := by
  cases f <;> simp [merge]

theorem merge_cons_cons (x y : Elem) (xs ys : List Elem) :
    merge (x :: xs) (y :: ys) =
      if strcmp x.2 y.2 = .lt then x :: merge xs (y :: ys)
      else y :: merge (x :: xs) ys := by
  simp [merge]

theorem merge_perm : ∀ (f s : List Elem), List.Perm (merge f s) (f ++ s)
  | [], s => by simp [merge_nil_left]
  | _ :: _, [] => by simp [merge_nil_right]
  | x :: xs, y :: ys => by
    rw [merge_cons_cons]
    split_ifs with h
    · exact (merge_perm xs (y :: ys)).cons x
    · have ih := (merge_perm (x :: xs) ys).cons y
      exact ih.trans List.perm_middle.symm
termination_by f s => f.length + s.length

theorem merge_mem {z : Elem} {f s : List Elem} (h : z ∈ merge f s) :
    z ∈ f ∨ z ∈ s := by
  have := (merge_perm f s).mem_iff.mp h
  simpa using this

theorem merge_pairwise : ∀ (f s : List Elem),
    List.Pairwise elemLe f → List.Pairwise elemLe s →
    List.Pairwise elemLe (merge f s)
  | [], s, _, hs => by simpa [merge_nil_left] using hs
  | _ :: _, [], hf, _ => by simpa [merge_nil_right] using hf
  | x :: xs, y :: ys, hf, hs => by
    rw [merge_cons_cons]
    rw [List.pairwise_cons] at hf hs
    split_ifs with h
    · rw [List.pairwise_cons]
      constructor
      · intro z hz
        rcases merge_mem hz with hz | hz
        · exact hf.1 z hz
        · rcases List.mem_cons.mp hz with rfl | hz
          · exact sle_of_lt h
          · exact sle_trans (sle_of_lt h) (hs.1 z hz)
      · exact merge_pairwise xs (y :: ys) hf.2 (List.pairwise_cons.mpr hs)
    · rw [List.pairwise_cons]
      constructor
      · intro z hz
        rcases merge_mem hz with hz | hz
        · rcases List.mem_cons.mp hz with rfl | hz
          · exact sle_of_not_lt h
          · exact sle_trans (sle_of_not_lt h) (hf.1 z hz)
        · exact hs.1 z hz
      · exact merge_pairwise (x :: xs) ys (List.pairwise_cons.mpr hf) hs.2
termination_by f s => f.length + s.length

theorem merge_sort_perm : ∀ l : List Elem, List.Perm (merge_sort l) l
  | [] => by simp [merge_sort]
  | [x] => by simp [merge_sort]
  | x :: y :: rest => by
    have h1 := merge_sort_perm ((x :: y :: rest).take (splitIdx 0 (y :: rest)))
    have h2 := merge_sort_perm ((x :: y :: rest).drop (splitIdx 0 (y :: rest)))
    have hm := merge_perm (merge_sort ((x :: y :: rest).take (splitIdx 0 (y :: rest))))
      (merge_sort ((x :: y :: rest).drop (splitIdx 0 (y :: rest))))
    have hall : List.Perm (merge_sort (x :: y :: rest))
        ((x :: y :: rest).take (splitIdx 0 (y :: rest)) ++
         (x :: y :: rest).drop (splitIdx 0 (y :: rest))) := by
      simp only [merge_sort]
      exact hm.trans (List.Perm.append h1 h2)
    simpa using hall
termination_by l => l.length
decreasing_by
  all_goals simp [splitIdx_eq] <;> omega

theorem merge_sort_pairwise : ∀ l : List Elem, List.Pairwise elemLe (merge_sort l)
  | [] => by simp [merge_sort]
  | [x] => by simp [merge_sort]
  | x :: y :: rest => by
    have h1 := merge_sort_pairwise ((x :: y :: rest).take (splitIdx 0 (y :: rest)))
    have h2 := merge_sort_pairwise ((x :: y :: rest).drop (splitIdx 0 (y :: rest)))
    simp only [merge_sort]
    exact merge_pairwise _ _ h1 h2
termination_by l => l.length
decreasing_by
  all_goals simp [splitIdx_eq] <;> omega

theorem q_sortChain_perm (l : List Elem) : List.Perm (q_sortChain l) l := by
  unfold q_sortChain
  split
  · exact List.Perm.refl _
  · exact List.Perm.refl _
  · exact merge_sort_perm l

theorem q_sortChain_pairwise (l : List Elem) : List.Pairwise elemLe (q_sortChain l) := by
  unfold q_sortChain
  split
  · simp
  · simp
  · exact merge_sort_pairwise l

/-! ## Facts about assignment tables and traversal -/

theorem alookup_cons [DecidableEq β] (a b k : β) (rest : List (β × β)) :
    alookup k ((a, b) :: rest) = if a = k then some b else alookup k rest := rfl

theorem alookup_eq_none [DecidableEq β] :
    ∀ (ps : List (β × β)) (k : β), k ∉ ps.map Prod.fst → alookup k ps = none
  | [], _, _ => rfl
  | (a, b) :: rest, k, h => by
    simp only [List.map_cons, List.mem_cons] at h
    push_neg at h
    rw [alookup_cons, if_neg (fun hh => h.1 hh.symm), alookup_eq_none rest k h.2]

theorem alookup_append [DecidableEq β] :
    ∀ (u v : List (β × β)) (k : β),
      alookup k (u ++ v) =
        match alookup k u with
        | some b => some b
        | none => alookup k v
  | [], v, k => by simp [alookup]
  | (a, b) :: rest, v, k => by
    by_cases h : a = k
    · simp [alookup, h]
    · simp only [List.cons_append, alookup_cons, if_neg h]
      exact alookup_append rest v k

theorem alookup_reverse [DecidableEq β] :
    ∀ (ps : List (β × β)) (k : β), (ps.map Prod.fst).Nodup →
      alookup k ps.reverse = alookup k ps
  | [], _, _ => rfl
  | (a, b) :: rest, k, h => by
    simp only [List.map_cons, List.nodup_cons] at h
    rw [List.reverse_cons, alookup_append]
    by_cases hk : a = k
    · subst hk
      have : alookup a rest.reverse = none := by
        apply alookup_eq_none
        rw [List.map_reverse, List.mem_reverse]
        exact h.1
      simp [this, alookup]
    · rw [alookup_reverse rest k h.2]
      rcases hl : alookup k rest with _ | b'
      · simp [alookup, hk, hl]
      · simp [alookup, hk, hl]

theorem chainFromAux_congr [DecidableEq β] (e1 e2 : List (β × β))
    (h : ∀ k, alookup k e1 = alookup k e2) :
    ∀ (fuel : Nat) (cur : β), chainFromAux e1 fuel cur = chainFromAux e2 fuel cur
  | 0, _ => rfl
  | fuel + 1, cur => by
    simp only [chainFromAux, h cur]
    rcases alookup cur e2 with _ | nxt
    · rfl
    · exact congrArg (fun t => nxt :: t) (chainFromAux_congr e1 e2 h fuel nxt)

theorem zip_head_tail (t : List β) (p dflt : β) (h : t ≠ []) :
    List.zip (p :: t) (t ++ [dflt]) = (p, t.headD dflt) :: List.zip t (t.tail ++ [dflt]) := by
  cases t with
  | nil => exact absurd rfl h
  | cons r t' => simp [List.zip_cons_cons]

theorem alookup_zip [DecidableEq β] :
    ∀ (pre post : List β) (cur dflt : β),
      (pre ++ cur :: post).Nodup →
      alookup cur (List.zip (pre ++ cur :: post) ((pre ++ cur :: post).tail ++ [dflt])) =
        some (post.headD dflt)
  | [], [], cur, dflt, _ => by simp [alookup]
  | [], y :: post', cur, dflt, _ => by simp [alookup]
  | p :: pre', post, cur, dflt, h => by
    have hne : pre' ++ cur :: post ≠ [] := by simp
    simp only [List.cons_append, List.tail_cons]
    rw [zip_head_tail _ _ _ hne]
    have hpcur : p ≠ cur := by
      simp only [List.cons_append, List.nodup_cons] at h
      intro he
      subst he
      exact h.1 (List.mem_append_right pre' (List.mem_cons_self p post))
    rw [alookup_cons, if_neg hpcur]
    apply alookup_zip pre' post cur dflt
    simp only [List.cons_append, List.nodup_cons] at h
    exact h.2

theorem chainFromAux_succ [DecidableEq β] (assoc : List (β × β)) (fuel : Nat) (cur : β) :
    chainFromAux assoc (fuel + 1) cur =
      match alookup cur assoc with
      | none => []
      | some nxt => nxt :: chainFromAux assoc fuel nxt := rfl

theorem chainWalk [DecidableEq β] :
    ∀ (post pre : List β) (cur dflt : β),
      (pre ++ cur :: post).Nodup →
      chainFromAux (List.zip (pre ++ cur :: post) ((pre ++ cur :: post).tail ++ [dflt]))
        (post.length + 1) cur = post ++ [dflt]
  | [], pre, cur, dflt, h => by
    rw [show ([] : List β).length + 1 = 0 + 1 from rfl, chainFromAux_succ]
    rw [alookup_zip pre [] cur dflt h]
    rfl
  | y :: post', pre, cur, dflt, h => by
    rw [show (y :: post').length + 1 = post'.length + 1 + 1 from rfl, chainFromAux_succ]
    rw [alookup_zip pre (y :: post') cur dflt h]
    show y :: chainFromAux
        (List.zip (pre ++ cur :: y :: post') ((pre ++ cur :: y :: post').tail ++ [dflt]))
        (post'.length + 1) y = (y :: post') ++ [dflt]
    have hrw : pre ++ cur :: y :: post' = (pre ++ [cur]) ++ y :: post' := by simp
    rw [hrw] at h ⊢
    rw [chainWalk post' (pre ++ [cur]) y dflt h]
    simp

theorem zip_reverse_eq :
    ∀ (xs ys : List β), xs.length = ys.length →
      (List.zip xs ys).reverse = List.zip xs.reverse ys.reverse
  | [], [], _ => rfl
  | [], _ :: _, h => by simp at h
  | _ :: _, [], h => by simp at h
  | x :: xs', y :: ys', h => by
    simp only [List.length_cons, Nat.add_right_cancel_iff] at h
    have hlen : xs'.reverse.length = ys'.reverse.length := by simp [h]
    rw [List.zip_cons_cons, List.reverse_cons, List.reverse_cons, List.reverse_cons,
      List.zip_append hlen, zip_reverse_eq xs' ys' h]
    rfl

theorem zip_snoc :
    ∀ (xs : List β) (z e : β),
      List.zip (xs ++ [e]) (z :: xs) = List.zip xs (z :: xs) ++ [(e, xs.getLastD z)]
  | [], z, e => rfl
  | x :: rest, z, e => by
    simp only [List.cons_append, List.zip_cons_cons, List.getLastD_cons]
    rw [zip_snoc rest x e]

theorem zip_swap_mem :
    ∀ (xs ys : List β) (a b : β), (a, b) ∈ List.zip xs ys ↔ (b, a) ∈ List.zip ys xs
  | [], ys, a, b => by cases ys <;> simp
  | _ :: _, [], _, _ => by simp
  | x :: xs', y :: ys', a, b => by
    simp only [List.zip_cons_cons, List.mem_cons, Prod.mk.injEq]
    rw [zip_swap_mem xs' ys' a b]
    constructor
    · rintro (⟨rfl, rfl⟩ | h)
      · exact Or.inl ⟨rfl, rfl⟩
      · exact Or.inr h
    · rintro (⟨rfl, rfl⟩ | h)
      · exact Or.inl ⟨rfl, rfl⟩
      · exact Or.inr h

theorem relinkLoop_eq :
    ∀ (s : List β) (f : β),
      relinkLoop f s = (List.zip s (f :: s), s.getLastD f)
  | [], f => rfl
  | x :: rest, f => by
    simp only [relinkLoop, relinkLoop_eq rest x, List.zip_cons_cons, List.getLastD_cons]

/-- The `prev` table installed by `q_sort`'s reconnection loop is exactly
the canonical one: every node's `prev` is its forward predecessor and the
sentinel's `prev` is the last node. -/
theorem q_sort_prevs_eq (c : List α) : q_sort_prevs c = prevsOf c := by
  unfold q_sort_prevs prevsOf
  rw [relinkLoop_eq (c.map some) none]
  rw [zip_snoc (c.map some) none none]

/-- The `next` and `prev` tables of a well-formed queue are converse
relations. -/
theorem nexts_prevs_converse (l : List α) (a b : Option α) :
    (a, b) ∈ nextsOf l ↔ (b, a) ∈ prevsOf l := by
  unfold nextsOf prevsOf
  exact zip_swap_mem (none :: l.map some) (l.map some ++ [none]) a b

theorem nodup_ring {l : List α} (h : l.Nodup) : ((none : Option α) :: l.map some).Nodup := by
  rw [List.nodup_cons]
  exact ⟨by simp, h.map (fun _ _ => by simp)⟩

/-- Forward traversal of a well-formed queue with element order `l`: from
the sentinel, `l.length + 1` steps of `next` visit the elements in order
and end back at the sentinel. -/
theorem nexts_traverse (l : List α) [DecidableEq α] (h : l.Nodup) :
    chainFrom (nextsOf l) (l.length + 1) = l.map some ++ [none] := by
  have hw := chainWalk (l.map some) ([] : List (Option α)) none none (by
    simpa using nodup_ring h)
  simp only [List.nil_append, List.tail_cons, List.length_map] at hw
  unfold chainFrom nextsOf
  exact hw

/-- Reversing all the `next`/`prev` assignments of the structure of `l`
yields (the reversed list of) the assignments of the structure of
`l.reverse`. -/
theorem prevsOf_reverse (l : List α) : (prevsOf l).reverse = nextsOf l.reverse := by
  unfold prevsOf nextsOf
  rw [zip_reverse_eq _ _ (by simp)]
  simp [List.map_reverse]

theorem nextsOf_reverse (l : List α) : (nextsOf l).reverse = prevsOf l.reverse := by
  unfold prevsOf nextsOf
  rw [zip_reverse_eq _ _ (by simp)]
  simp [List.map_reverse]

theorem prevsOf_keys (l : List α) : (prevsOf l).map Prod.fst = l.map some ++ [none] := by
  unfold prevsOf
  rw [List.map_fst_zip]
  simp

/-- Traversal by the `prev` table (the `next` table after `q_reverse`):
the elements are visited in reversed order. -/
theorem prevs_traverse (l : List α) [DecidableEq α] (h : l.Nodup) :
    chainFrom (prevsOf l) (l.length + 1) = l.reverse.map some ++ [none] := by
  have hkeys : ((prevsOf l).map Prod.fst).Nodup := by
    rw [prevsOf_keys]
    have h0 : ((none : Option α) :: l.map some).Nodup := nodup_ring h
    refine (@List.nodup_middle _ none (l.map some) []).mpr ?_
    simpa using h0
  have hcongr : ∀ k, alookup k (prevsOf l) = alookup k (nextsOf l.reverse) := by
    intro k
    rw [← prevsOf_reverse l]
    exact (alookup_reverse (prevsOf l) k hkeys).symm
  unfold chainFrom
  rw [chainFromAux_congr (prevsOf l) (nextsOf l.reverse) hcongr]
  have := nexts_traverse l.reverse (List.nodup_reverse.mpr h)
  unfold chainFrom at this
  rw [show l.length = l.reverse.length from by simp]
  exact this

theorem nextsOf_keys (l : List α) : (nextsOf l).map Prod.fst = none :: l.map some := by
  unfold nextsOf
  rw [List.map_fst_zip]
  simp

/-! ## Position reached by the slow/fast loop of `q_delete_mid` -/

theorem midAux_eq : ∀ (l : List α) (i : Nat), midAux i l = i + l.length / 2
  | [], i => by simp [midAux]
  | [_], i => by simp [midAux]
  | _ :: _ :: rest, i => by
    have ih := midAux_eq rest (i + 1)
    simp [midAux, ih]
    omega

/-! ## Index behaviour of `q_swap` -/

theorem q_swapAux_length : ∀ l : List α, (q_swapAux l).length = l.length
  | [] => rfl
  | [_] => rfl
  | _ :: _ :: rest => by simp [q_swapAux, q_swapAux_length rest]

theorem q_swapAux_pairs :
    ∀ (l : List α) (i : Nat), 2 * i + 1 < l.length →
      (q_swapAux l)[2 * i]? = l[2 * i + 1]? ∧ (q_swapAux l)[2 * i + 1]? = l[2 * i]?
  | [], i, h => by simp at h
  | [_], i, h => by
    simp only [List.length_cons, List.length_nil] at h
    omega
  | x :: y :: rest, 0, _ => by simp [q_swapAux]
  | x :: y :: rest, i + 1, h => by
    have hlt : 2 * i + 1 < rest.length := by
      simp only [List.length_cons] at h
      omega
    have ih := q_swapAux_pairs rest i hlt
    simp only [q_swapAux, show 2 * (i + 1) = 2 * i + 1 + 1 from by omega,
      List.getElem?_cons_succ]
    exact ⟨ih.1, ih.2⟩

theorem q_swapAux_last :
    ∀ l : List α, l.length % 2 = 1 →
      (q_swapAux l)[l.length - 1]? = l[l.length - 1]?
  | [], h => by simp at h
  | [x], _ => by simp [q_swapAux]
  | x :: y :: rest, h => by
    have hodd : rest.length % 2 = 1 := by
      simp only [List.length_cons] at h
      omega
    have hpos : 1 ≤ rest.length := by omega
    have ih := q_swapAux_last rest hodd
    obtain ⟨k, hk⟩ : ∃ k, rest.length = k + 1 := ⟨rest.length - 1, by omega⟩
    rw [hk] at ih
    simp only [Nat.add_sub_cancel] at ih
    simp only [q_swapAux, List.length_cons, hk]
    rw [show k + 1 + 1 + 1 - 1 = k + 1 + 1 from by omega]
    rw [List.getElem?_cons_succ, List.getElem?_cons_succ,
      List.getElem?_cons_succ, List.getElem?_cons_succ]
    exact ih

instance (a b : Elem) : Decidable (elemLe a b) :=
  inferInstanceAs (Decidable (sle a.2 b.2 = true))

instance (a b : Str) : Decidable (strLe a b) :=
  inferInstanceAs (Decidable (sle a b = true))

/-! ## The claims -/

/-- C1: the claim says `q_delete_dup` on the sorted queue
["a","b","b","c"] removes every member of the length-2 run of "b" and
leaves ["a","c"].  The code does not: `first` never leaves the sentinel
and the guard compares node pointers, so the loop only rewrites
`head->next`, leaving the forward chain at the last two nodes
["b","c"] (and releasing nothing).  This theorem evaluates the code at
that failing input: the result is (["b","c"], true), not (["a","c"], true). -/
theorem q_delete_dup_failing_eval :
    q_delete_dup (some ([[97], [98], [98], [99]] : List Str)) =
      (some [[98], [99]], true) ∧
    q_delete_dup (some ([[97], [98], [98], [99]] : List Str)) ≠
      (some [[97], [99]], true) := by
  constructor
  · rfl
  · decide

/-- C2: the claim says every operation called with a NULL queue pointer is
a no-op / false return and never a crash, in particular `q_swap` and
`q_reverse`.  The guarded operations do return harmlessly on `none`, but
`q_swap` (line 241) and `q_reverse` (line 268) read `head->next` through
the NULL pointer before any check — a crash, not a safe return. -/
theorem null_pointer_behaviour :
    q_swap (none : Option (List Str)) = .error () ∧
    q_reverse (none : Option (List (Option Str × Option Str) ×
      List (Option Str × Option Str))) = .error () ∧
    (∀ (a1 a2 : Bool) (s : Str), q_insert_head a1 a2 none s = .ok (none, false)) ∧
    (∀ (a1 a2 : Bool) (s : Str), q_insert_tail a1 a2 none s = .ok (none, false)) ∧
    (∀ sp, q_remove_head none sp = (none, none, none)) ∧
    (∀ sp, q_remove_tail none sp = (none, none, none)) ∧
    q_size (none : Option (List Str)) = 0 ∧
    q_delete_mid (none : Option (List Str)) = (none, false) ∧
    q_delete_dup (none : Option (List Str)) = (none, false) ∧
    q_sort none = none ∧
    q_free (none : Option (List Str)) = .ok () :=
  ⟨rfl, rfl, fun _ _ _ => rfl, fun _ _ _ => rfl, fun _ => rfl, fun _ => rfl,
    rfl, rfl, rfl, rfl, rfl⟩

/-- C3: the claim says both insertions fail only on allocation exhaustion,
leave the queue unmodified on failure, and release the element shell when
the string-buffer allocation fails.  `q_insert_head` does exactly that
(lines 59-62), but `q_insert_tail` never checks the string-buffer `malloc`
(line 87) and crashes in `strncpy`/the terminator store with the shell
still allocated. -/
theorem insert_alloc_failure_behaviour (l : List Str) (s : Str) :
    q_insert_head false false (some l) s = .ok (some l, false) ∧
    q_insert_head false true (some l) s = .ok (some l, false) ∧
    q_insert_head true false (some l) s = .ok (some l, false) ∧
    q_insert_head true true (some l) s = .ok (some (str_copy s :: l), true) ∧
    q_insert_tail false false (some l) s = .ok (some l, false) ∧
    q_insert_tail true true (some l) s = .ok (some (l ++ [str_copy s]), true) ∧
    q_insert_tail true false (some l) s = .error () :=
  ⟨rfl, rfl, rfl, rfl, rfl, rfl, rfl⟩

/-- C9: a successful `q_insert_head` stores an exact independent copy of
`s` (the `strncpy` of `strlen(s)` bytes plus terminator is `s` itself),
and an immediately following `q_remove_head` unlinks and returns that very
element, whose value is `s`, leaving the queue as before. -/
theorem insert_remove_roundtrip (l : List Str) (s : Str) :
    q_insert_head true true (some l) s = .ok (some (str_copy s :: l), true) ∧
    str_copy s = s ∧
    q_remove_head (some (str_copy s :: l)) none = (some l, some s, none) := by
  refine ⟨rfl, ?_, ?_⟩
  · simp [str_copy]
  · simp [q_remove_head, str_copy]

/-- C6: `q_delete_mid` removes exactly the element at 0-based position
⌊n/2⌋ of a non-empty queue and returns true (the slow/fast loop ends with
`first` at that position); it returns false and changes nothing on a NULL
or empty queue; for n = 1 the single element is removed; for n = 6 the
element `D` at index 3 of [A,B,C,D,E,F] is removed. -/
theorem q_delete_mid_spec (l : List Str) (h : l ≠ []) :
    q_delete_mid (some l) = (some (l.eraseIdx (l.length / 2)), true) ∧
    q_delete_mid (none : Option (List Str)) = (none, false) ∧
    q_delete_mid (some ([] : List Str)) = (some [], false) ∧
    (∀ x : Str, q_delete_mid (some [x]) = (some [], true)) ∧
    q_delete_mid (some ([[65], [66], [67], [68], [69], [70]] : List Str)) =
      (some [[65], [66], [67], [69], [70]], true) := by
  refine ⟨?_, rfl, rfl, fun x => rfl, by decide⟩
  cases l with
  | nil => exact absurd rfl h
  | cons x rest => simp [q_delete_mid, midAux_eq]

/-- Witness for C6 at the concrete one-element queue ["a"]. -/
theorem q_delete_mid_spec_witness :
    q_delete_mid (some ([[97]] : List Str)) =
      (some (([[97]] : List Str).eraseIdx (([[97]] : List Str).length / 2)), true) ∧
    q_delete_mid (none : Option (List Str)) = (none, false) ∧
    q_delete_mid (some ([] : List Str)) = (some [], false) ∧
    (∀ x : Str, q_delete_mid (some [x]) = (some [], true)) ∧
    q_delete_mid (some ([[65], [66], [67], [68], [69], [70]] : List Str)) =
      (some [[65], [66], [67], [69], [70]], true) :=
  q_delete_mid_spec [[97]] (by decide)

/-- C5: after `q_sort`, every adjacent pair (a, b) of the forward traversal
satisfies value(a) ≤ value(b) under lexical string comparison, and `q_sort`
returns immediately, changing nothing, on a NULL, empty, or one-element
queue. -/
theorem q_sort_sorts_and_noop :
    (∀ l : List Elem, List.Chain' elemLe ((q_sort (some l)).getD [])) ∧
    q_sort none = none ∧
    q_sort (some ([] : List Elem)) = some [] ∧
    (∀ x : Elem, q_sort (some [x]) = some [x]) := by
  refine ⟨?_, rfl, rfl, fun x => rfl⟩
  intro l
  exact (q_sortChain_pairwise l).chain'

/-- C8: on a well-formed queue, `q_swap` exchanges each adjacent pair of
elements (positions 2i and 2i+1), leaves a trailing unpaired element of an
odd-length queue in place, preserves the number of elements, and on
[A,B,C,D,E] yields [B,A,D,C,E]. -/
theorem q_swap_spec (l : List Str) (i : Nat) (h : 2 * i + 1 < l.length) :
    ((q_swapAux l)[2 * i]? = l[2 * i + 1]? ∧
      (q_swapAux l)[2 * i + 1]? = l[2 * i]?) ∧
    (∀ m : List Str, m.length % 2 = 1 →
      (q_swapAux m)[m.length - 1]? = m[m.length - 1]?) ∧
    (∀ m : List Str, (q_swapAux m).length = m.length) ∧
    q_swap (some ([[65], [66], [67], [68], [69]] : List Str)) =
      .ok [[66], [65], [68], [67], [69]] :=
  ⟨q_swapAux_pairs l i h, fun m => q_swapAux_last m,
    fun m => q_swapAux_length m, rfl⟩

/-- Witness for C8 on the five-element queue [A,B,C,D,E] at pair i = 1. -/
theorem q_swap_spec_witness :
    ((q_swapAux ([[65], [66], [67], [68], [69]] : List Str))[2 * 1]? =
        ([[65], [66], [67], [68], [69]] : List Str)[2 * 1 + 1]? ∧
      (q_swapAux ([[65], [66], [67], [68], [69]] : List Str))[2 * 1 + 1]? =
        ([[65], [66], [67], [68], [69]] : List Str)[2 * 1]?) ∧
    (∀ m : List Str, m.length % 2 = 1 →
      (q_swapAux m)[m.length - 1]? = m[m.length - 1]?) ∧
    (∀ m : List Str, (q_swapAux m).length = m.length) ∧
    q_swap (some ([[65], [66], [67], [68], [69]] : List Str)) =
      .ok [[66], [65], [68], [67], [69]] :=
  q_swap_spec [[65], [66], [67], [68], [69]] 1 (by decide)

/-- C7: on a well-formed queue with forward order `l`, one application of
`q_reverse` exchanges the `next` and `prev` tables, after which the forward
traversal from the sentinel is exactly `l.reverse`; a second application
restores the original state, whose traversal is `l`; and the node set is
unchanged (nothing is allocated or freed). -/
theorem q_reverse_involution_spec (l : List Str) (h : l.Nodup) :
    q_reverse (some (nextsOf l, prevsOf l)) = .ok (prevsOf l, nextsOf l) ∧
    chainFrom (prevsOf l) (l.length + 1) = l.reverse.map some ++ [none] ∧
    q_reverse (some (prevsOf l, nextsOf l)) = .ok (nextsOf l, prevsOf l) ∧
    chainFrom (nextsOf l) (l.length + 1) = l.map some ++ [none] ∧
    List.Perm ((prevsOf l).map Prod.fst) ((nextsOf l).map Prod.fst) := by
  refine ⟨rfl, prevs_traverse l h, rfl, nexts_traverse l h, ?_⟩
  rw [prevsOf_keys, nextsOf_keys]
  exact List.perm_append_singleton _ _

/-- Witness for C7 on the two-element queue ["a","b"]. -/
theorem q_reverse_involution_spec_witness :
    q_reverse (some (nextsOf ([[97], [98]] : List Str), prevsOf [[97], [98]])) =
      .ok (prevsOf [[97], [98]], nextsOf [[97], [98]]) ∧
    chainFrom (prevsOf ([[97], [98]] : List Str)) (([[97], [98]] : List Str).length + 1) =
      ([[97], [98]] : List Str).reverse.map some ++ [none] ∧
    q_reverse (some (prevsOf ([[97], [98]] : List Str), nextsOf [[97], [98]])) =
      .ok (nextsOf [[97], [98]], prevsOf [[97], [98]]) ∧
    chainFrom (nextsOf ([[97], [98]] : List Str)) (([[97], [98]] : List Str).length + 1) =
      ([[97], [98]] : List Str).map some ++ [none] ∧
    List.Perm ((prevsOf ([[97], [98]] : List Str)).map Prod.fst)
      ((nextsOf ([[97], [98]] : List Str)).map Prod.fst) :=
  q_reverse_involution_spec [[97], [98]] (by decide)

/-- C10: on a well-formed non-empty queue, `q_sort` preserves the multiset
of elements (the sorted chain is a permutation of the original), and the
reconnection loop restores the circular doubly-linked invariant: the `prev`
assignments it installs pair every node with its forward predecessor (the
converse of the `next` table), and the forward chain from the sentinel
comes back to the sentinel after visiting every element. -/
theorem q_sort_invariants (l : List Elem) (_h1 : l ≠ []) (h2 : l.Nodup) :
    List.Perm (q_sortChain l) l ∧
    q_sort_prevs (q_sortChain l) = prevsOf (q_sortChain l) ∧
    (∀ a b : Option Elem,
      (a, b) ∈ nextsOf (q_sortChain l) ↔ (b, a) ∈ prevsOf (q_sortChain l)) ∧
    chainFrom (nextsOf (q_sortChain l)) (l.length + 1) =
      (q_sortChain l).map some ++ [none] := by
  have hperm := q_sortChain_perm l
  refine ⟨hperm, q_sort_prevs_eq _, fun a b => nexts_prevs_converse _ a b, ?_⟩
  have hnd : (q_sortChain l).Nodup := hperm.nodup_iff.mpr h2
  have hlen : (q_sortChain l).length = l.length := hperm.length_eq
  rw [← hlen]
  exact nexts_traverse _ hnd

/-- Witness for C10 on the two-element queue [(0,"b"), (1,"a")]. -/
theorem q_sort_invariants_witness :
    List.Perm (q_sortChain [((0 : Nat), [98]), (1, [97])])
      [((0 : Nat), [98]), (1, [97])] ∧
    q_sort_prevs (q_sortChain [((0 : Nat), [98]), (1, [97])]) =
      prevsOf (q_sortChain [((0 : Nat), [98]), (1, [97])]) ∧
    (∀ a b : Option Elem,
      (a, b) ∈ nextsOf (q_sortChain [((0 : Nat), [98]), (1, [97])]) ↔
      (b, a) ∈ prevsOf (q_sortChain [((0 : Nat), [98]), (1, [97])])) ∧
    chainFrom (nextsOf (q_sortChain [((0 : Nat), [98]), (1, [97])]))
        (([((0 : Nat), [98]), (1, [97])] : List Elem).length + 1) =
      (q_sortChain [((0 : Nat), [98]), (1, [97])]).map some ++ [none] :=
  q_sort_invariants [(0, [98]), (1, [97])] (by decide) (by decide)

/-- C4 (counterexample): the claim says that on equal head values `merge`
appends the element of the first-argument chain before the one of the
second chain.  It does not: `strcmp(...) < 0` strictly prefers the first
chain, so on a tie the `else` branch appends the second chain's element
first.  Here the two one-node chains hold the same string "a", the nodes
being distinguished by identity 0 (first chain) and 1 (second chain); the
merged chain starts with node 1. -/
theorem merge_tie_counterexample :
    merge [((0 : Nat), [97])] [((1 : Nat), [97])] = [(1, [97]), (0, [97])] ∧
    merge [((0 : Nat), [97])] [((1 : Nat), [97])] ≠ [(0, [97]), (1, [97])] := by
  have h : merge [((0 : Nat), [97])] [((1 : Nat), [97])] = [(1, [97]), (0, [97])] := by
    rw [merge_cons_cons]
    simp [strcmp_self, merge_nil_right]
  exact ⟨h, by rw [h]; decide⟩

/-- C4 (amended): in the merge step, when the head values of the two
chains compare equal, the element of the SECOND-argument chain is appended
before the element of the first chain (the merge is tie-biased to the
second chain, so the sort is not stable by node identity); nevertheless
sorting an already-sorted queue yields the same sequence of values, i.e.
`q_sort` is idempotent at the value level. -/
theorem merge_tie_amended :
    (∀ (x y : Elem) (xs ys : List Elem), strcmp x.2 y.2 = .eq →
      merge (x :: xs) (y :: ys) = y :: merge (x :: xs) ys) ∧
    (∀ l : List Elem, List.Chain' elemLe l →
      (q_sortChain l).map Prod.snd = l.map Prod.snd) := by
  constructor
  · intro x y xs ys hxy
    rw [merge_cons_cons, if_neg (by rw [hxy]; simp)]
  · intro l hl
    have hp : List.Pairwise elemLe l := List.chain'_iff_pairwise.mp hl
    have hperm : List.Perm ((q_sortChain l).map Prod.snd) (l.map Prod.snd) :=
      (q_sortChain_perm l).map Prod.snd
    have hs1 : List.Sorted strLe ((q_sortChain l).map Prod.snd) :=
      List.pairwise_map.mpr (q_sortChain_pairwise l)
    have hs2 : List.Sorted strLe (l.map Prod.snd) :=
      List.pairwise_map.mpr hp
    exact List.eq_of_perm_of_sorted hperm hs1 hs2

/-- Witness for C4 (amended): a tie of two "a"-nodes takes the second
chain's node first, and sorting the already-sorted [(0,"a"), (1,"b")]
keeps the value sequence ["a", "b"]. -/
theorem merge_tie_amended_witness :
    merge [((0 : Nat), [97])] [((1 : Nat), [97])] =
      (1, [97]) :: merge [((0 : Nat), [97])] [] ∧
    (q_sortChain [((0 : Nat), [97]), (1, [98])]).map Prod.snd =
      ([((0 : Nat), [97]), (1, [98])] : List Elem).map Prod.snd := by
  obtain ⟨h1, h2⟩ := merge_tie_amended
  refine ⟨h1 (0, [97]) (1, [97]) [] [] (by decide), h2 _ ?_⟩
  exact List.chain'_cons.mpr ⟨by decide, List.chain'_singleton _⟩
